import Mathlib

/-
  Verification of the CMFD acceleration header (src/Cmfd.h) of OpenMOC.

  The header carries the full bodies of Cmfd::tallyCurrent, Cmfd::getCmfdGroup
  and the stencilCompare comparator; the remaining member functions are only
  declared there, so the parts of the development that depend on them are
  modelled from the specification and marked as such in their doc comments.

  Numeric convention: the C++ FP_PRECISION floating-point type is embedded as
  the rationals, i.e. the development reasons about exact arithmetic.
-/

namespace OpenMOC

/-- Modelled from the spec: the constants header defining NUM_SURFACES is not
under src/.  A CMFD cell carries a fixed small set of surfaces (6 faces in 3D
plus 12 edge and 8 vertex split surfaces), and combined surface tags are
encoded as cell_id * NUM_SURFACES + surf_id. -/
def NUM_SURFACES : Int := 26

/-- The fields of a Track segment that Cmfd::tallyCurrent reads: the combined
CMFD surface tags for the forward and backward direction, -1 meaning that the
segment does not cross a CMFD surface in that direction. -/
structure segment where
  cmfd_surface_fwd : Int
  cmfd_surface_bwd : Int

/-- The state of a Cmfd object, restricted to the fields read or written by
Cmfd::tallyCurrent and Cmfd::getCmfdGroup: group counts, the fine-to-coarse
group map, the solve dimensionality, the quadrature weight table and the
surface-current store.  The surface-current Vector is embedded as a total map
from (cell, index) to the stored value. -/
structure Cmfd where
  num_moc_groups : Nat
  num_cmfd_groups : Nat
  num_polar : Nat
  solve_3D : Bool
  group_indices_map : Nat → Nat
  getWeightInline : Nat → Nat → ℚ
  surface_currents : Int → Int → ℚ

/-- Cmfd::getCmfdGroup: the CMFD (coarse) group of an MOC (fine) group, a
lookup in the fine-to-coarse map. -/
def Cmfd.getCmfdGroup (c : Cmfd) (group : Nat) : Nat :=
  c.group_indices_map group

/-- One `currents[g] += v` step of the local accumulation loop of
Cmfd::tallyCurrent, on the local currents array embedded as a map. -/
def bump (cur : Int → ℚ) (g : Int) (v : ℚ) : Int → ℚ :=
  fun j => if j = g then cur j + v else cur j

/-- The local currents array built by the 3D branch of Cmfd::tallyCurrent:
for each fine group e, track_flux[e] * wgt is accumulated into the coarse
group of e. -/
def currents3D (c : Cmfd) (track_flux : Nat → ℚ) (wgt : ℚ) : Int → ℚ :=
  (List.range c.num_moc_groups).foldl
    (fun cur e => bump cur (c.getCmfdGroup e : Int) (track_flux e * wgt))
    (fun _ => 0)

/-- The local currents array built by the 2D branch of Cmfd::tallyCurrent:
for each fine group e and each polar index p below num_polar/2,
track_flux[pe] * weight(azim, p) is accumulated into the coarse group of e,
where pe walks the flat flux array (pe = e * (num_polar/2) + p). -/
def currents2D (c : Cmfd) (track_flux : Nat → ℚ) (azim_index : Nat) : Int → ℚ :=
  (List.range c.num_moc_groups).foldl
    (fun cur e =>
      (List.range (c.num_polar / 2)).foldl
        (fun cur2 p =>
          bump cur2 (c.getCmfdGroup e : Int)
            (track_flux (e * (c.num_polar / 2) + p) * c.getWeightInline azim_index p))
        cur)
    (fun _ => 0)

/-- Modelled from the spec: Vector::incrementValues (linalg.h is not under
src/) adds vals[idx - first] to the entry idx of the given cell for every idx
in [first, last], leaving every other entry of the store unchanged. -/
def incrementValues (store : Int → Int → ℚ) (cell first last : Int)
    (vals : Int → ℚ) : Int → Int → ℚ :=
  fun c idx =>
    if c = cell ∧ first ≤ idx ∧ idx ≤ last then store c idx + vals (idx - first)
    else store c idx

/-- The tally block of Cmfd::tallyCurrent, executed when tally_current is
true: decode the combined surface tag into surf_id and cell_id, build the
local coarse-group currents array (3D or 2D branch) and increment the entries
surf_id * num_cmfd_groups .. (surf_id + 1) * num_cmfd_groups - 1 of the
crossed cell in the surface-current store. -/
def Cmfd.tallyAt (c : Cmfd) (tag : Int) (track_flux : Nat → ℚ)
    (azim_index polar_index : Nat) : Cmfd :=
  let surf_id := Int.tmod tag NUM_SURFACES
  let cell_id := Int.tdiv tag NUM_SURFACES
  let ncg : Int := c.num_cmfd_groups
  let currents : Int → ℚ :=
    if c.solve_3D then
      currents3D c track_flux (c.getWeightInline azim_index polar_index)
    else
      currents2D c track_flux azim_index
  let new_store :=
    incrementValues c.surface_currents cell_id (surf_id * ncg)
      ((surf_id + 1) * ncg - 1) currents
  { c with surface_currents := new_store }

/-- Cmfd::tallyCurrent: if the surface tag matching the direction flag is not
-1, tally the segment contribution across the decoded cell surface; otherwise
do nothing. -/
def Cmfd.tallyCurrent (c : Cmfd) (curr_segment : segment) (track_flux : Nat → ℚ)
    (azim_index polar_index : Nat) (fwd : Bool) : Cmfd :=
  if curr_segment.cmfd_surface_fwd ≠ -1 ∧ fwd then
    c.tallyAt curr_segment.cmfd_surface_fwd track_flux azim_index polar_index
  else if curr_segment.cmfd_surface_bwd ≠ -1 ∧ ¬ fwd then
    c.tallyAt curr_segment.cmfd_surface_bwd track_flux azim_index polar_index
  else
    c

theorem bump_zero (cur : Int → ℚ) (g : Int) : bump cur g 0 = cur := by
  funext j
  simp [bump]

theorem foldl_bump_eq (l : List Nat) (f : Nat → Int) (v : Nat → ℚ)
    (cur : Int → ℚ) (j : Int) :
    (l.foldl (fun acc e => bump acc (f e) (v e)) cur) j
      = cur j + ((l.filter (fun e => f e = j)).map v).sum := by
  induction l generalizing cur with
  | nil => simp
  | cons a t ih =>
      simp only [List.foldl_cons]
      rw [ih]
      by_cases h : f a = j
      · rw [List.filter_cons_of_pos (by simpa using h)]
        simp only [List.map_cons, List.sum_cons, bump]
        rw [if_pos h.symm]
        ring
      · rw [List.filter_cons_of_neg (by simpa using h)]
        simp only [bump]
        rw [if_neg (fun hh => h hh.symm)]

theorem foldl_bump_const (l : List Nat) (g : Int) (v : Nat → ℚ) (cur : Int → ℚ) :
    l.foldl (fun acc p => bump acc g (v p)) cur = bump cur g ((l.map v).sum) := by
  induction l generalizing cur with
  | nil => simp [bump_zero]
  | cons a t ih =>
      simp only [List.foldl_cons, List.map_cons, List.sum_cons]
      rw [ih]
      funext j
      by_cases h : j = g
      · simp only [bump, h, if_true, if_pos rfl]
        ring
      · simp [bump, h]

theorem filter_cast_eq (m : Nat → Nat) (g : Nat) (l : List Nat) :
    l.filter (fun e => (m e : Int) = (g : Int)) = l.filter (fun e => m e = g) := by
  apply List.filter_congr
  intro e _
  simp

theorem currents3D_apply (c : Cmfd) (track_flux : Nat → ℚ) (wgt : ℚ) (g : Nat) :
    currents3D c track_flux wgt (g : Int)
      = (((List.range c.num_moc_groups).filter
            (fun e => c.getCmfdGroup e = g)).map
          (fun e => track_flux e * wgt)).sum := by
  unfold currents3D
  rw [foldl_bump_eq, filter_cast_eq]
  simp only [zero_add]

theorem currents2D_apply (c : Cmfd) (track_flux : Nat → ℚ) (azim_index : Nat)
    (g : Nat) :
    currents2D c track_flux azim_index (g : Int)
      = (((List.range c.num_moc_groups).filter
            (fun e => c.getCmfdGroup e = g)).map
          (fun e =>
            ((List.range (c.num_polar / 2)).map
              (fun p => track_flux (e * (c.num_polar / 2) + p)
                * c.getWeightInline azim_index p)).sum)).sum := by
  unfold currents2D
  simp only [foldl_bump_const]
  rw [foldl_bump_eq, filter_cast_eq]
  simp only [zero_add]

theorem tallyAt_store (c : Cmfd) (tag : Int) (track_flux : Nat → ℚ)
    (azim_index polar_index : Nat) :
    (c.tallyAt tag track_flux azim_index polar_index).surface_currents
      = incrementValues c.surface_currents (Int.tdiv tag NUM_SURFACES)
          (Int.tmod tag NUM_SURFACES * (c.num_cmfd_groups : Int))
          ((Int.tmod tag NUM_SURFACES + 1) * (c.num_cmfd_groups : Int) - 1)
          (if c.solve_3D then currents3D c track_flux (c.getWeightInline azim_index polar_index)
           else currents2D c track_flux azim_index) := rfl

theorem tallyCurrent_eq_tallyAt (c : Cmfd) (curr_segment : segment)
    (track_flux : Nat → ℚ) (azim_index polar_index : Nat) (fwd : Bool) (t : Int)
    (ht : t = if fwd then curr_segment.cmfd_surface_fwd else curr_segment.cmfd_surface_bwd)
    (hne : t ≠ -1) :
    c.tallyCurrent curr_segment track_flux azim_index polar_index fwd
      = c.tallyAt t track_flux azim_index polar_index := by
  cases fwd with
  | false =>
      have ht' : t = curr_segment.cmfd_surface_bwd := by simpa using ht
      subst ht'
      unfold Cmfd.tallyCurrent
      rw [if_neg (by simp), if_pos (by simp [hne])]
  | true =>
      have ht' : t = curr_segment.cmfd_surface_fwd := by simpa using ht
      subst ht'
      unfold Cmfd.tallyCurrent
      rw [if_pos (by simp [hne])]

/-- C1: for a segment whose direction-matched surface tag is not -1,
tallyCurrent adds to the crossed surface's accumulator, for each coarse group
g, the sum over the fine MOC groups condensed into g of
track_flux[e] * quadrature_weight when the solve is 3D, and when the solve is
2D the sum over those fine groups of the polar half-space sum of
track_flux[pe] weighted by the polar-dependent quadrature weight. -/
theorem tallyCurrent_condensed_contribution
    (c : Cmfd) (curr_segment : segment) (track_flux : Nat → ℚ)
    (azim_index polar_index : Nat) (fwd : Bool) (t : Int)
    (ht : t = if fwd then curr_segment.cmfd_surface_fwd else curr_segment.cmfd_surface_bwd)
    (hne : t ≠ -1) (g : Nat) (hg : g < c.num_cmfd_groups) :
    (c.tallyCurrent curr_segment track_flux azim_index polar_index fwd).surface_currents
        (Int.tdiv t NUM_SURFACES)
        (Int.tmod t NUM_SURFACES * (c.num_cmfd_groups : Int) + (g : Int))
      = c.surface_currents (Int.tdiv t NUM_SURFACES)
          (Int.tmod t NUM_SURFACES * (c.num_cmfd_groups : Int) + (g : Int))
        + (if c.solve_3D then
            (((List.range c.num_moc_groups).filter (fun e => c.getCmfdGroup e = g)).map
              (fun e => track_flux e * c.getWeightInline azim_index polar_index)).sum
          else
            (((List.range c.num_moc_groups).filter (fun e => c.getCmfdGroup e = g)).map
              (fun e => ((List.range (c.num_polar / 2)).map
                (fun p => track_flux (e * (c.num_polar / 2) + p)
                  * c.getWeightInline azim_index p)).sum)).sum) := by
  rw [tallyCurrent_eq_tallyAt c curr_segment track_flux azim_index polar_index fwd t ht hne]
  rw [tallyAt_store]
  have hg' : (g : Int) + 1 ≤ (c.num_cmfd_groups : Int) := by exact_mod_cast hg
  have hge : (0 : Int) ≤ (g : Int) := Int.natCast_nonneg g
  have hcond : Int.tdiv t NUM_SURFACES = Int.tdiv t NUM_SURFACES
      ∧ Int.tmod t NUM_SURFACES * (c.num_cmfd_groups : Int)
          ≤ Int.tmod t NUM_SURFACES * (c.num_cmfd_groups : Int) + (g : Int)
      ∧ Int.tmod t NUM_SURFACES * (c.num_cmfd_groups : Int) + (g : Int)
          ≤ (Int.tmod t NUM_SURFACES + 1) * (c.num_cmfd_groups : Int) - 1 := by
    refine ⟨rfl, by linarith, ?_⟩
    have hexp : (Int.tmod t NUM_SURFACES + 1) * (c.num_cmfd_groups : Int) - 1
        = Int.tmod t NUM_SURFACES * (c.num_cmfd_groups : Int)
          + ((c.num_cmfd_groups : Int) - 1) := by ring
    rw [hexp]
    linarith
  unfold incrementValues
  rw [if_pos hcond]
  have hidx : Int.tmod t NUM_SURFACES * (c.num_cmfd_groups : Int) + (g : Int)
      - Int.tmod t NUM_SURFACES * (c.num_cmfd_groups : Int) = (g : Int) := by ring
  rw [hidx]
  congr 1
  by_cases h3 : c.solve_3D
  · rw [if_pos h3, if_pos h3, currents3D_apply]
  · rw [if_neg h3, if_neg h3, currents2D_apply]

def exMap : Nat → Nat := fun e => e / 2

def exCmfd : Cmfd where
  num_moc_groups := 4
  num_cmfd_groups := 2
  num_polar := 2
  solve_3D := true
  group_indices_map := exMap
  getWeightInline := fun _ _ => (1 : ℚ) / 2
  surface_currents := fun _ _ => 0

def exSegment : segment where
  cmfd_surface_fwd := 29
  cmfd_surface_bwd := -1

def exFlux : Nat → ℚ := fun e => (e : ℚ) + 1

theorem tallyCurrent_condensed_contribution_witness :
    (29 : Int) ≠ -1 ∧ (0 : Nat) < exCmfd.num_cmfd_groups ∧
    (exCmfd.tallyCurrent exSegment exFlux 0 0 true).surface_currents 1 6
      = exCmfd.surface_currents 1 6 + 3 / 2 := by
  refine ⟨by decide, by decide, ?_⟩
  have h := tallyCurrent_condensed_contribution exCmfd exSegment exFlux 0 0 true 29
    rfl (by decide) 0 (by decide)
  have e1 : Int.tdiv 29 NUM_SURFACES = 1 := by decide
  have e2 : Int.tmod 29 NUM_SURFACES * ((exCmfd.num_cmfd_groups : Nat) : Int) + ((0 : Nat) : Int)
      = 6 := by decide
  rw [e1, e2] at h
  rw [h]
  norm_num [exCmfd, exMap, exFlux, Cmfd.getCmfdGroup, List.range_succ]

/-- C2: if the surface tag matching the direction flag (forward tag when fwd,
backward tag when not fwd) is -1, tallyCurrent is a no-op: the Cmfd object,
its surface-current store included, is returned unchanged. -/
theorem tallyCurrent_noop_of_tag_neg_one
    (c : Cmfd) (curr_segment : segment) (track_flux : Nat → ℚ)
    (azim_index polar_index : Nat) (fwd : Bool)
    (h : (if fwd then curr_segment.cmfd_surface_fwd else curr_segment.cmfd_surface_bwd) = -1) :
    c.tallyCurrent curr_segment track_flux azim_index polar_index fwd = c := by
  cases fwd with
  | false =>
      have h' : curr_segment.cmfd_surface_bwd = -1 := by simpa using h
      unfold Cmfd.tallyCurrent
      rw [if_neg (by simp), if_neg (by simp [h'])]
  | true =>
      have h' : curr_segment.cmfd_surface_fwd = -1 := by simpa using h
      unfold Cmfd.tallyCurrent
      rw [if_neg (by simp [h']), if_neg (by simp)]

theorem tallyCurrent_noop_of_tag_neg_one_witness :
    (if false then exSegment.cmfd_surface_fwd else exSegment.cmfd_surface_bwd) = -1 ∧
    exCmfd.tallyCurrent exSegment exFlux 0 0 false = exCmfd :=
  ⟨by decide, tallyCurrent_noop_of_tag_neg_one exCmfd exSegment exFlux 0 0 false (by decide)⟩

/-- One queued Cmfd::tallyCurrent invocation: the segment, its angular flux
and the angular indices and direction flag of the call. -/
structure TallyOp where
  seg : segment
  track_flux : Nat → ℚ
  azim_index : Nat
  polar_index : Nat
  fwd : Bool

/-- Apply Cmfd::tallyCurrent once for each queued segment contribution, in
list order. -/
def tallyAll (c : Cmfd) (ops : List TallyOp) : Cmfd :=
  ops.foldl (fun acc op =>
    acc.tallyCurrent op.seg op.track_flux op.azim_index op.polar_index op.fwd) c

/-- The per-entry amount a single tallyCurrent call adds to the
surface-current store: the store the call would produce starting from an
all-zero store. -/
def tallyDelta (c : Cmfd) (op : TallyOp) : Int → Int → ℚ :=
  (Cmfd.tallyCurrent { c with surface_currents := fun _ _ => 0 }
      op.seg op.track_flux op.azim_index op.polar_index op.fwd).surface_currents

theorem incrementValues_split (s : Int → Int → ℚ) (cl first last : Int)
    (vals : Int → ℚ) (cell idx : Int) :
    incrementValues s cl first last vals cell idx
      = s cell idx + incrementValues (fun _ _ => 0) cl first last vals cell idx := by
  unfold incrementValues
  by_cases h : cell = cl ∧ first ≤ idx ∧ idx ≤ last
  · rw [if_pos h, if_pos h]
    ring
  · rw [if_neg h, if_neg h]
    ring

theorem tallyAt_split (c : Cmfd) (s : Int → Int → ℚ) (tag : Int)
    (track_flux : Nat → ℚ) (azim_index polar_index : Nat) (cell idx : Int) :
    (Cmfd.tallyAt { c with surface_currents := s } tag track_flux
        azim_index polar_index).surface_currents cell idx
      = s cell idx
        + (Cmfd.tallyAt { c with surface_currents := fun _ _ => 0 } tag track_flux
            azim_index polar_index).surface_currents cell idx :=
  incrementValues_split s (Int.tdiv tag NUM_SURFACES)
    (Int.tmod tag NUM_SURFACES * (c.num_cmfd_groups : Int))
    ((Int.tmod tag NUM_SURFACES + 1) * (c.num_cmfd_groups : Int) - 1) _ cell idx

theorem tallyCurrent_split (c : Cmfd) (s : Int → Int → ℚ) (op : TallyOp)
    (cell idx : Int) :
    (Cmfd.tallyCurrent { c with surface_currents := s } op.seg op.track_flux
        op.azim_index op.polar_index op.fwd).surface_currents cell idx
      = s cell idx + tallyDelta c op cell idx := by
  unfold tallyDelta Cmfd.tallyCurrent
  by_cases h1 : op.seg.cmfd_surface_fwd ≠ -1 ∧ op.fwd = true
  · rw [if_pos h1, if_pos h1]
    exact tallyAt_split c s op.seg.cmfd_surface_fwd op.track_flux
      op.azim_index op.polar_index cell idx
  · rw [if_neg h1, if_neg h1]
    by_cases h2 : op.seg.cmfd_surface_bwd ≠ -1 ∧ ¬ op.fwd = true
    · rw [if_pos h2, if_pos h2]
      exact tallyAt_split c s op.seg.cmfd_surface_bwd op.track_flux
        op.azim_index op.polar_index cell idx
    · rw [if_neg h2, if_neg h2]
      show s cell idx = s cell idx + (0 : ℚ)
      ring

theorem tallyCurrent_update_form (c : Cmfd) (s : Int → Int → ℚ) (op : TallyOp) :
    Cmfd.tallyCurrent { c with surface_currents := s } op.seg op.track_flux
        op.azim_index op.polar_index op.fwd
      = { c with surface_currents :=
            (Cmfd.tallyCurrent { c with surface_currents := s } op.seg op.track_flux
                op.azim_index op.polar_index op.fwd).surface_currents } := by
  unfold Cmfd.tallyCurrent Cmfd.tallyAt
  split_ifs <;> rfl

theorem tallyAll_store_aux (c : Cmfd) (s : Int → Int → ℚ) (ops : List TallyOp)
    (cell idx : Int) :
    (tallyAll { c with surface_currents := s } ops).surface_currents cell idx
      = s cell idx + (ops.map (fun op => tallyDelta c op cell idx)).sum := by
  induction ops generalizing s with
  | nil => simp [tallyAll]
  | cons op t ih =>
      simp only [tallyAll, List.foldl_cons] at ih ⊢
      rw [tallyCurrent_update_form, ih, tallyCurrent_split, List.map_cons,
        List.sum_cons]
      ring

theorem tallyAll_store_sum (c : Cmfd) (ops : List TallyOp) (cell idx : Int) :
    (tallyAll c ops).surface_currents cell idx
      = c.surface_currents cell idx
        + (ops.map (fun op => tallyDelta c op cell idx)).sum :=
  tallyAll_store_aux c c.surface_currents ops cell idx

/-- C3: current tallying is additive and order-independent: starting from the
same surface-current store, tallying a fixed multiset of segment
contributions in any order yields the same per-surface, per-coarse-group
totals (exact arithmetic). -/
theorem tallyAll_perm_invariant (c : Cmfd) (ops1 ops2 : List TallyOp)
    (h : ops1.Perm ops2) :
    (tallyAll c ops1).surface_currents = (tallyAll c ops2).surface_currents := by
  funext cell idx
  rw [tallyAll_store_sum, tallyAll_store_sum]
  exact congrArg (fun x => c.surface_currents cell idx + x)
    ((h.map (fun op => tallyDelta c op cell idx)).sum_eq)

def exOp1 : TallyOp where
  seg := exSegment
  track_flux := exFlux
  azim_index := 0
  polar_index := 0
  fwd := true

def exOp2 : TallyOp where
  seg := { cmfd_surface_fwd := 3, cmfd_surface_bwd := -1 }
  track_flux := exFlux
  azim_index := 0
  polar_index := 0
  fwd := true

theorem tallyAll_perm_invariant_witness :
    List.Perm [exOp1, exOp2] [exOp2, exOp1] ∧
    (tallyAll exCmfd [exOp1, exOp2]).surface_currents
      = (tallyAll exCmfd [exOp2, exOp1]).surface_currents :=
  ⟨List.Perm.swap exOp2 exOp1 [],
    tallyAll_perm_invariant exCmfd [exOp1, exOp2] [exOp2, exOp1]
      (List.Perm.swap exOp2 exOp1 [])⟩

/-- stencilCompare (src/Cmfd.h): the comparator used to sort the k-nearest
stencil pairs, comparing two (cell, distance) pairs by distance. -/
def stencilCompare (firstElem secondElem : Nat × ℚ) : Bool :=
  firstElem.2 < secondElem.2

/-- Modelled from the spec: the sorting step of Cmfd::generateKNearestStencils
(Cmfd.cpp is not under src/), a deterministic stable insertion sort driven by
the stencilCompare comparator of src/Cmfd.h. -/
def insertStencil (x : Nat × ℚ) : List (Nat × ℚ) → List (Nat × ℚ)
  | [] => [x]
  | y :: ys => if stencilCompare x y then x :: y :: ys else y :: insertStencil x ys

/-- Modelled from the spec: sort a stencil pair list ascending by distance. -/
def sortStencils (l : List (Nat × ℚ)) : List (Nat × ℚ) :=
  l.foldr insertStencil []

/-- Modelled from the spec: Cmfd::generateKNearestStencils (declared in
src/Cmfd.h, defined in Cmfd.cpp which is not under src/) builds, for a given
fine region, the (coarse-cell-id, distance-to-centroid) pair of every coarse
cell, sorts the pairs ascending by distance and keeps the first k_nearest
entries. -/
def generateKNearestStencils (num_cells k_nearest : Nat)
    (dist : Nat → Nat → ℚ) (fsr : Nat) : List (Nat × ℚ) :=
  (sortStencils ((List.range num_cells).map
    (fun cell => (cell, dist fsr cell)))).take k_nearest

theorem mem_insertStencil (x : Nat × ℚ) (l : List (Nat × ℚ)) (z : Nat × ℚ)
    (hz : z ∈ insertStencil x l) : z = x ∨ z ∈ l := by
  induction l with
  | nil => simpa [insertStencil] using hz
  | cons y ys ih =>
      unfold insertStencil at hz
      by_cases hc : stencilCompare x y = true
      · rw [if_pos hc] at hz
        rcases List.mem_cons.mp hz with h | h
        · exact Or.inl h
        · exact Or.inr h
      · rw [if_neg hc] at hz
        rcases List.mem_cons.mp hz with h | h
        · exact Or.inr (h ▸ List.mem_cons_self y ys)
        · rcases ih h with h2 | h2
          · exact Or.inl h2
          · exact Or.inr (List.mem_cons_of_mem y h2)

theorem sorted_insertStencil (x : Nat × ℚ) (l : List (Nat × ℚ))
    (h : List.Sorted (fun a b : Nat × ℚ => a.2 ≤ b.2) l) :
    List.Sorted (fun a b : Nat × ℚ => a.2 ≤ b.2) (insertStencil x l) := by
  induction l with
  | nil => simp [insertStencil]
  | cons y ys ih =>
      rw [List.sorted_cons] at h
      unfold insertStencil
      by_cases hc : stencilCompare x y = true
      · rw [if_pos hc]
        have hxy : x.2 ≤ y.2 := le_of_lt (by simpa [stencilCompare] using hc)
        rw [List.sorted_cons]
        constructor
        · intro b hb
          rcases List.mem_cons.mp hb with h2 | h2
          · exact h2 ▸ hxy
          · exact le_trans hxy (h.1 b h2)
        · rw [List.sorted_cons]
          exact h
      · rw [if_neg hc]
        have hyx : y.2 ≤ x.2 := by
          simpa [stencilCompare, not_lt] using hc
        rw [List.sorted_cons]
        refine ⟨?_, ih h.2⟩
        intro b hb
        rcases mem_insertStencil x ys b hb with h2 | h2
        · exact h2 ▸ hyx
        · exact h.1 b h2

theorem sorted_sortStencils (l : List (Nat × ℚ)) :
    List.Sorted (fun a b : Nat × ℚ => a.2 ≤ b.2) (sortStencils l) := by
  induction l with
  | nil => simp [sortStencils]
  | cons x t ih => exact sorted_insertStencil x (sortStencils t) ih

theorem length_insertStencil (x : Nat × ℚ) (l : List (Nat × ℚ)) :
    (insertStencil x l).length = l.length + 1 := by
  induction l with
  | nil => rfl
  | cons y ys ih =>
      unfold insertStencil
      by_cases hc : stencilCompare x y = true
      · rw [if_pos hc]
        rfl
      · rw [if_neg hc]
        simp [ih]

theorem length_sortStencils (l : List (Nat × ℚ)) :
    (sortStencils l).length = l.length := by
  induction l with
  | nil => rfl
  | cons x t ih =>
      show (insertStencil x (sortStencils t)).length = t.length + 1
      rw [length_insertStencil, ih]

/-- C4: k-nearest stencil generation is deterministic (it is a pure function
of the geometry data, so repeated runs agree), and for every fine region it
yields a (cell, distance) list sorted ascending by distance whose length is
exactly k, or the number of coarse cells when fewer than k exist. -/
theorem generateKNearestStencils_deterministic_sorted_truncated
    (num_cells k_nearest : Nat) (dist : Nat → Nat → ℚ) (fsr : Nat) :
    generateKNearestStencils num_cells k_nearest dist fsr
        = generateKNearestStencils num_cells k_nearest dist fsr
      ∧ List.Sorted (fun a b : Nat × ℚ => a.2 ≤ b.2)
          (generateKNearestStencils num_cells k_nearest dist fsr)
      ∧ (generateKNearestStencils num_cells k_nearest dist fsr).length
          = min k_nearest num_cells := by
  refine ⟨rfl, ?_, ?_⟩
  · exact List.Pairwise.sublist (List.take_sublist _ _) (sorted_sortStencils _)
  · unfold generateKNearestStencils
    rw [List.length_take, length_sortStencils, List.length_map,
      List.length_range]

/-- Modelled from the spec: the near-zero threshold below which the old CMFD
flux is treated as degenerate and the flux ratio is replaced by the neutral
value 1 instead of being computed by division. -/
def FLUX_EPSILON : ℚ := 1 / 10 ^ 12

/-- The state read by the flux-update / prolongation engine (updateMOCFlux,
getUpdateRatio and the _flux_ratio vector are declared in src/Cmfd.h but
defined in Cmfd.cpp, which is not under src/): old and new coarse fluxes per
(cell, coarse group), the fine-to-coarse group map, the centroid-update flag,
the per-FSR k-nearest stencils, the coarse cell containing each FSR and the
fine fluxes per (FSR, fine group). -/
structure FluxUpdate where
  centroid_update_on : Bool
  group_indices_map : Nat → Nat
  old_flux : Nat → Nat → ℚ
  new_flux : Nat → Nat → ℚ
  stencils : Nat → List (Nat × ℚ)
  fsr_cell : Nat → Nat
  FSR_fluxes : Nat → Nat → ℚ

/-- Modelled from the spec: the _flux_ratio entry of a (cell, coarse group),
new flux over old flux, with the division guarded: a near-zero old flux gives
the neutral ratio 1. -/
def FluxUpdate.fluxRatio (c : FluxUpdate) (cell g : Nat) : ℚ :=
  if |c.old_flux cell g| ≤ FLUX_EPSILON then 1
  else c.new_flux cell g / c.old_flux cell g

/-- Modelled from the spec: Cmfd::getUpdateRatio.  With centroid updating the
ratio is interpolated from the FSR's k-nearest stencil by inverse-distance
weighting with weights normalized to sum to one; otherwise the ratio of the
containing coarse cell is used directly. -/
def FluxUpdate.getUpdateRatio (c : FluxUpdate) (moc_group fsr : Nat) : ℚ :=
  if c.centroid_update_on then
    ((c.stencils fsr).map
        (fun pr => 1 / pr.2 * c.fluxRatio pr.1 (c.group_indices_map moc_group))).sum
      / ((c.stencils fsr).map (fun pr => 1 / pr.2)).sum
  else
    c.fluxRatio (c.fsr_cell fsr) (c.group_indices_map moc_group)

/-- Modelled from the spec: Cmfd::updateMOCFlux rescales each fine-region
flux by the update ratio of its fine group. -/
def FluxUpdate.updateMOCFlux (c : FluxUpdate) : Nat → Nat → ℚ :=
  fun fsr moc_group => c.FSR_fluxes fsr moc_group * c.getUpdateRatio moc_group fsr

/-- C6: the flux-ratio computation is division-guarded: a near-zero old flux
produces the neutral ratio 1, and the division branch is only taken when the
old flux is bounded away from zero (in particular nonzero). -/
theorem fluxRatio_division_guarded (c : FluxUpdate) (cell g : Nat) :
    (|c.old_flux cell g| ≤ FLUX_EPSILON → c.fluxRatio cell g = 1)
    ∧ (¬ |c.old_flux cell g| ≤ FLUX_EPSILON →
        c.old_flux cell g ≠ 0
          ∧ c.fluxRatio cell g = c.new_flux cell g / c.old_flux cell g) := by
  constructor
  · intro h
    unfold FluxUpdate.fluxRatio
    rw [if_pos h]
  · intro h
    constructor
    · intro h0
      apply h
      rw [h0]
      norm_num [FLUX_EPSILON]
    · unfold FluxUpdate.fluxRatio
      rw [if_neg h]

def exFluxUpdate : FluxUpdate where
  centroid_update_on := true
  group_indices_map := exMap
  old_flux := fun _ _ => 2
  new_flux := fun _ _ => 2
  stencils := fun _ => [(0, 1), (1, 2)]
  fsr_cell := fun _ => 0
  FSR_fluxes := fun _ _ => 5

theorem fluxRatio_division_guarded_witness :
    ¬ |exFluxUpdate.old_flux 0 0| ≤ FLUX_EPSILON ∧
    exFluxUpdate.old_flux 0 0 ≠ 0 ∧
    exFluxUpdate.fluxRatio 0 0 = exFluxUpdate.new_flux 0 0 / exFluxUpdate.old_flux 0 0 :=
  ⟨by norm_num [exFluxUpdate, FLUX_EPSILON],
    (fluxRatio_division_guarded exFluxUpdate 0 0).2
      (by norm_num [exFluxUpdate, FLUX_EPSILON])⟩

theorem sum_pos_of_mem_pos (l : List ℚ) (hne : l ≠ [])
    (hpos : ∀ x ∈ l, 0 < x) : 0 < l.sum := by
  induction l with
  | nil => exact absurd rfl hne
  | cons a t ih =>
      rw [List.sum_cons]
      have ha : 0 < a := hpos a (List.mem_cons_self a t)
      cases t with
      | nil => simpa using ha
      | cons b u =>
          have ht : 0 < (b :: u).sum := by
            apply ih
            · simp
            · intro x hx
              exact hpos x (List.mem_cons_of_mem a hx)
          linarith

/-- C5: round-trip identity of the flux update: when the new coarse flux
equals the old coarse flux in every cell and coarse group, every flux ratio
is 1 and updateMOCFlux — with or without centroid-based interpolation, the
stencils being nonempty with positive centroid distances when centroid
updating is on — leaves every fine-region flux unchanged. -/
theorem updateMOCFlux_roundtrip (c : FluxUpdate)
    (hflux : ∀ cell g, c.new_flux cell g = c.old_flux cell g)
    (hstencil : c.centroid_update_on = true →
      ∀ fsr, c.stencils fsr ≠ [] ∧ ∀ pr ∈ c.stencils fsr, 0 < pr.2) :
    (∀ cell g, c.fluxRatio cell g = 1)
    ∧ ∀ fsr moc_group,
        c.updateMOCFlux fsr moc_group = c.FSR_fluxes fsr moc_group := by
  have hratio : ∀ cell g, c.fluxRatio cell g = 1 := by
    intro cell g
    unfold FluxUpdate.fluxRatio
    by_cases h : |c.old_flux cell g| ≤ FLUX_EPSILON
    · rw [if_pos h]
    · rw [if_neg h]
      have h0 : c.old_flux cell g ≠ 0 := by
        intro h0
        apply h
        rw [h0]
        norm_num [FLUX_EPSILON]
      rw [hflux]
      exact div_self h0
  refine ⟨hratio, ?_⟩
  intro fsr moc_group
  unfold FluxUpdate.updateMOCFlux FluxUpdate.getUpdateRatio
  by_cases hc : c.centroid_update_on = true
  · rw [if_pos hc]
    rcases hstencil hc fsr with ⟨hne, hpos⟩
    have hmap : (c.stencils fsr).map
          (fun pr => 1 / pr.2 * c.fluxRatio pr.1 (c.group_indices_map moc_group))
        = (c.stencils fsr).map (fun pr => 1 / pr.2) := by
      apply List.map_congr_left
      intro pr _
      rw [hratio]
      ring
    rw [hmap]
    have htotal : 0 < ((c.stencils fsr).map (fun pr => 1 / pr.2)).sum := by
      apply sum_pos_of_mem_pos
      · simpa using hne
      · intro x hx
        rcases List.mem_map.mp hx with ⟨pr, hpr, hpx⟩
        rw [← hpx]
        exact one_div_pos.mpr (hpos pr hpr)
    rw [div_self (ne_of_gt htotal)]
    ring
  · rw [if_neg hc, hratio]
    ring

theorem updateMOCFlux_roundtrip_witness :
    (∀ cell g, exFluxUpdate.new_flux cell g = exFluxUpdate.old_flux cell g)
    ∧ exFluxUpdate.fluxRatio 0 0 = 1
    ∧ exFluxUpdate.updateMOCFlux 0 0 = exFluxUpdate.FSR_fluxes 0 0 := by
  have h := updateMOCFlux_roundtrip exFluxUpdate (fun _ _ => rfl)
    (by
      intro _ fsr
      refine ⟨by simp [exFluxUpdate], ?_⟩
      intro pr hpr
      simp only [exFluxUpdate, List.mem_cons, List.not_mem_nil, or_false] at hpr
      rcases hpr with h1 | h1 <;> rw [h1] <;> norm_num)
  exact ⟨fun _ _ => rfl, h.1 0 0, h.2 0 0⟩

/-- Modelled from the spec: Cmfd::getSurfaceDiffusionCoefficient (declared in
src/Cmfd.h, defined in Cmfd.cpp which is not under src/).  dif_hat is the
uncorrected finite-difference surface diffusion coefficient and dif_tilde the
nonlinear transport-consistency correction; the correction is applied only
after the first transport sweep (moc_iteration > 0), the first call falling
back to the uncorrected coefficient. -/
def getSurfaceDiffusionCoefficient (dif_hat dif_tilde : ℚ)
    (moc_iteration : Nat) : ℚ :=
  if 0 < moc_iteration then dif_hat + dif_tilde else dif_hat

/-- C7: the nonlinear diffusion-coefficient correction is applied only when
moc_iteration > 0; at moc_iteration = 0 the returned surface diffusion
coefficient is the uncorrected one. -/
theorem getSurfaceDiffusionCoefficient_first_call_uncorrected
    (dif_hat dif_tilde : ℚ) :
    getSurfaceDiffusionCoefficient dif_hat dif_tilde 0 = dif_hat
    ∧ ∀ moc_iteration, 0 < moc_iteration →
        getSurfaceDiffusionCoefficient dif_hat dif_tilde moc_iteration
          = dif_hat + dif_tilde := by
  constructor
  · unfold getSurfaceDiffusionCoefficient
    rw [if_neg (lt_irrefl 0)]
  · intro n hn
    unfold getSurfaceDiffusionCoefficient
    rw [if_pos hn]

theorem getSurfaceDiffusionCoefficient_first_call_uncorrected_witness :
    getSurfaceDiffusionCoefficient 3 5 0 = 3
    ∧ 0 < 2
    ∧ getSurfaceDiffusionCoefficient 3 5 2 = 3 + 5 :=
  ⟨(getSurfaceDiffusionCoefficient_first_call_uncorrected 3 5).1,
    by decide,
    (getSurfaceDiffusionCoefficient_first_call_uncorrected 3 5).2 2 (by decide)⟩

/-- Modelled from the spec: Cmfd::initializeGroupMap (declared in src/Cmfd.h,
defined in Cmfd.cpp which is not under src/) builds the fine-to-coarse group
map from the accepted group structure: group_indices holds the fine-group
boundaries of the coarse groups (group_indices i .. group_indices (i+1) - 1
are the fine groups of coarse group i), and each fine group in that band is
mapped to coarse group i. -/
def initializeGroupMap (num_cmfd_groups : Nat) (group_indices : Nat → Nat) :
    Nat → Nat :=
  (List.range num_cmfd_groups).foldl
    (fun m i => fun e =>
      if group_indices i ≤ e ∧ e < group_indices (i + 1) then i else m e)
    (fun _ => 0)

theorem initializeGroupMap_succ (n : Nat) (gi : Nat → Nat) (e : Nat) :
    initializeGroupMap (n + 1) gi e
      = if gi n ≤ e ∧ e < gi (n + 1) then n else initializeGroupMap n gi e := by
  unfold initializeGroupMap
  rw [List.range_succ, List.foldl_append, List.foldl_cons, List.foldl_nil]

theorem groupIndices_mono (ncg : Nat) (gi : Nat → Nat)
    (hmono : ∀ i, i < ncg → gi i < gi (i + 1)) :
    ∀ a b, a ≤ b → b ≤ ncg → gi a ≤ gi b := by
  intro a b hab hb
  induction b with
  | zero =>
      have : a = 0 := Nat.le_zero.mp hab
      rw [this]
  | succ m ih =>
      rcases Nat.lt_or_ge a (m + 1) with h | h
      · have h1 : gi a ≤ gi m := ih (Nat.lt_succ_iff.mp h) (Nat.le_of_succ_le hb)
        have h2 : gi m < gi (m + 1) := hmono m (Nat.lt_of_succ_le hb)
        exact le_of_lt (lt_of_le_of_lt h1 h2)
      · have : a = m + 1 := Nat.le_antisymm hab h
        rw [this]

theorem initializeGroupMap_band (ncg : Nat) (gi : Nat → Nat)
    (hmono : ∀ i, i < ncg → gi i < gi (i + 1)) (i e : Nat) (hi : i < ncg)
    (hlo : gi i ≤ e) (hhi : e < gi (i + 1)) :
    initializeGroupMap ncg gi e = i := by
  induction ncg with
  | zero => exact absurd hi (Nat.not_lt_zero i)
  | succ n ih =>
      rw [initializeGroupMap_succ]
      rcases Nat.lt_or_ge i n with h | h
      · have hin : gi (i + 1) ≤ gi n :=
          groupIndices_mono (n + 1) gi hmono (i + 1) n (Nat.succ_le_of_lt h)
            (Nat.le_succ n)
        have : ¬ (gi n ≤ e ∧ e < gi (n + 1)) := by
          intro hcon
          exact absurd (lt_of_lt_of_le hhi hin) (Nat.not_lt.mpr hcon.1)
        rw [if_neg this]
        exact ih (fun j hj => hmono j (Nat.lt_succ_of_lt hj)) h
      · have : i = n := Nat.le_antisymm (Nat.lt_succ_iff.mp hi) h
        subst this
        rw [if_pos ⟨hlo, hhi⟩]

theorem initializeGroupMap_exists_band (ncg : Nat) (gi : Nat → Nat)
    (h0 : gi 0 = 0) (e : Nat) (he : e < gi ncg) :
    ∃ i, i < ncg ∧ gi i ≤ e ∧ e < gi (i + 1) := by
  induction ncg with
  | zero =>
      rw [h0] at he
      exact absurd he (Nat.not_lt_zero e)
  | succ n ih =>
      rcases Nat.lt_or_ge e (gi n) with h | h
      · rcases ih h with ⟨i, hi, hlo, hhi⟩
        exact ⟨i, Nat.lt_succ_of_lt hi, hlo, hhi⟩
      · exact ⟨n, Nat.lt_succ_self n, h, he⟩

/-- C8: for every accepted group-collapse configuration (monotone fine-group
boundaries starting at fine group 0, the identity default included), the
fine-to-coarse map built by initializeGroupMap is total and single-valued:
via getCmfdGroup every fine group lands in exactly one coarse group, the
coarse indices are contiguous from 0 (every coarse group below
num_cmfd_groups is the image of some fine group), and the image band bounds
identify the coarse group uniquely. -/
theorem groupMap_total_and_contiguous (c : Cmfd) (ncg : Nat) (gi : Nat → Nat)
    (hmap : c.group_indices_map = initializeGroupMap ncg gi)
    (h0 : gi 0 = 0) (hmono : ∀ i, i < ncg → gi i < gi (i + 1)) :
    (∀ e, e < gi ncg →
      c.getCmfdGroup e < ncg
        ∧ gi (c.getCmfdGroup e) ≤ e ∧ e < gi (c.getCmfdGroup e + 1)
        ∧ ∀ i, i < ncg → gi i ≤ e → e < gi (i + 1) → i = c.getCmfdGroup e)
    ∧ ∀ i, i < ncg → ∃ e, e < gi ncg ∧ c.getCmfdGroup e = i := by
  constructor
  · intro e he
    rcases initializeGroupMap_exists_band ncg gi h0 e he with ⟨i, hi, hlo, hhi⟩
    have hmapped : c.getCmfdGroup e = i := by
      unfold Cmfd.getCmfdGroup
      rw [hmap]
      exact initializeGroupMap_band ncg gi hmono i e hi hlo hhi
    refine ⟨hmapped ▸ hi, hmapped ▸ hlo, hmapped ▸ hhi, ?_⟩
    intro j hj hjlo hjhi
    rw [hmapped]
    have : initializeGroupMap ncg gi e = j :=
      initializeGroupMap_band ncg gi hmono j e hj hjlo hjhi
    have hieq : initializeGroupMap ncg gi e = i :=
      initializeGroupMap_band ncg gi hmono i e hi hlo hhi
    rw [← this, hieq]
  · intro i hi
    refine ⟨gi i, ?_, ?_⟩
    · exact lt_of_lt_of_le (hmono i hi)
        (groupIndices_mono ncg gi hmono (i + 1) ncg (Nat.succ_le_of_lt hi)
          (Nat.le_refl ncg))
    · unfold Cmfd.getCmfdGroup
      rw [hmap]
      exact initializeGroupMap_band ncg gi hmono i (gi i) hi (Nat.le_refl _)
        (hmono i hi)

def exGroupIndices : Nat → Nat := fun i => 2 * i

def exCmfd8 : Cmfd where
  num_moc_groups := 4
  num_cmfd_groups := 2
  num_polar := 2
  solve_3D := true
  group_indices_map := initializeGroupMap 2 exGroupIndices
  getWeightInline := fun _ _ => 1
  surface_currents := fun _ _ => 0

theorem groupMap_total_and_contiguous_witness :
    exGroupIndices 0 = 0
    ∧ (∀ i, i < 2 → exGroupIndices i < exGroupIndices (i + 1))
    ∧ exCmfd8.getCmfdGroup 3 < 2
    ∧ exGroupIndices (exCmfd8.getCmfdGroup 3) ≤ 3
    ∧ 3 < exGroupIndices (exCmfd8.getCmfdGroup 3 + 1)
    ∧ ∃ e, e < exGroupIndices 2 ∧ exCmfd8.getCmfdGroup e = 0 := by
  have h := groupMap_total_and_contiguous exCmfd8 2 exGroupIndices rfl
    (by decide) (by decide)
  have h3 := h.1 3 (by decide)
  exact ⟨by decide, by decide, h3.1, h3.2.1, h3.2.2.1, h.2 0 (by decide)⟩

/-- Modelled from the spec: the eigenvalue/linear solve loop of
Cmfd::computeKeff (declared in src/Cmfd.h, defined in Cmfd.cpp which is not
under src/).  Each iteration performs one linear-solve/k-update step and then
checks source convergence; exhausting the fixed iteration cap without
convergence is a fatal error carrying no flux/k-eff state, and a state is
returned only from the converged terminal case. -/
def computeKeffLoop {S : Type} (step : S → S) (converged : S → Bool) :
    Nat → S → Except String S
  | 0, _ => Except.error "CMFD eigenvalue solve failed to converge"
  | n + 1, s =>
      if converged (step s) then Except.ok (step s)
      else computeKeffLoop step converged n (step s)

/-- C9: if the computeKeff loop exceeds its iteration cap without reaching
convergence it ends in the fatal error, returning no partial or stale state;
any returned state satisfies the convergence check, i.e. results come only
from the converged terminal state. -/
theorem computeKeffLoop_no_partial_result {S : Type} (step : S → S)
    (converged : S → Bool) (cap : Nat) (s0 : S) :
    (∀ out, computeKeffLoop step converged cap s0 = Except.ok out →
        converged out = true)
    ∧ ((∀ i, 1 ≤ i → i ≤ cap → converged (Nat.iterate step i s0) = false) →
        computeKeffLoop step converged cap s0
          = Except.error "CMFD eigenvalue solve failed to converge") := by
  induction cap generalizing s0 with
  | zero =>
      constructor
      · intro out hout
        exact absurd hout (by simp [computeKeffLoop])
      · intro _
        rfl
  | succ n ih =>
      constructor
      · intro out hout
        unfold computeKeffLoop at hout
        by_cases hc : converged (step s0) = true
        · rw [if_pos hc] at hout
          have hstep : step s0 = out := by injection hout
          rw [← hstep]
          exact hc
        · rw [if_neg hc] at hout
          exact (ih (step s0)).1 out hout
      · intro hall
        unfold computeKeffLoop
        have h1 : converged (step s0) = false := by
          have := hall 1 (le_refl 1) (Nat.succ_le_succ (Nat.zero_le n))
          simpa using this
        rw [if_neg (by simp [h1])]
        apply (ih (step s0)).2
        intro i h1i hin
        have := hall (i + 1) (Nat.le_add_left 1 i) (Nat.succ_le_succ hin)
        rw [Function.iterate_succ_apply] at this
        exact this

def exStep : Nat → Nat := fun n => n + 1

def exConvergedAtOne : Nat → Bool := fun n => n == 1

def exNeverConverged : Nat → Bool := fun _ => false

theorem computeKeffLoop_no_partial_result_witness :
    computeKeffLoop exStep exConvergedAtOne 5 0 = Except.ok 1
    ∧ exConvergedAtOne 1 = true
    ∧ (∀ i, 1 ≤ i → i ≤ 3 → exNeverConverged (Nat.iterate exStep i 0) = false)
    ∧ computeKeffLoop exStep exNeverConverged 3 0
        = Except.error "CMFD eigenvalue solve failed to converge" :=
  ⟨rfl,
    (computeKeffLoop_no_partial_result exStep exConvergedAtOne 5 0).1 1 rfl,
    fun _ _ _ => rfl,
    (computeKeffLoop_no_partial_result exStep exNeverConverged 3 0).2
      (fun _ _ _ => rfl)⟩

/-- C10: frame effect of Cmfd::tallyCurrent when a tally occurs: the combined
surface tag t is decoded as cell_id = t / NUM_SURFACES and
surf_id = t % NUM_SURFACES (C-style truncating division), exactly the
num_cmfd_groups store entries of that cell in the index range
[surf_id * num_cmfd_groups, (surf_id + 1) * num_cmfd_groups - 1] are
incremented by the local currents array, every entry of every other cell or
index is unchanged, and all the other fields of the Cmfd object are
unchanged. -/
theorem tallyCurrent_frame (c : Cmfd) (curr_segment : segment)
    (track_flux : Nat → ℚ) (azim_index polar_index : Nat) (fwd : Bool) (t : Int)
    (ht : t = if fwd then curr_segment.cmfd_surface_fwd
              else curr_segment.cmfd_surface_bwd)
    (hne : t ≠ -1) :
    (∀ idx : Int,
        Int.tmod t NUM_SURFACES * (c.num_cmfd_groups : Int) ≤ idx →
        idx ≤ (Int.tmod t NUM_SURFACES + 1) * (c.num_cmfd_groups : Int) - 1 →
        (c.tallyCurrent curr_segment track_flux azim_index polar_index
            fwd).surface_currents (Int.tdiv t NUM_SURFACES) idx
          = c.surface_currents (Int.tdiv t NUM_SURFACES) idx
            + (if c.solve_3D then
                currents3D c track_flux (c.getWeightInline azim_index polar_index)
              else currents2D c track_flux azim_index)
              (idx - Int.tmod t NUM_SURFACES * (c.num_cmfd_groups : Int)))
    ∧ (∀ cell idx : Int,
        ¬ (cell = Int.tdiv t NUM_SURFACES
            ∧ Int.tmod t NUM_SURFACES * (c.num_cmfd_groups : Int) ≤ idx
            ∧ idx ≤ (Int.tmod t NUM_SURFACES + 1) * (c.num_cmfd_groups : Int) - 1) →
        (c.tallyCurrent curr_segment track_flux azim_index polar_index
            fwd).surface_currents cell idx = c.surface_currents cell idx)
    ∧ (c.tallyCurrent curr_segment track_flux azim_index polar_index
        fwd).num_moc_groups = c.num_moc_groups
    ∧ (c.tallyCurrent curr_segment track_flux azim_index polar_index
        fwd).num_cmfd_groups = c.num_cmfd_groups
    ∧ (c.tallyCurrent curr_segment track_flux azim_index polar_index
        fwd).num_polar = c.num_polar
    ∧ (c.tallyCurrent curr_segment track_flux azim_index polar_index
        fwd).solve_3D = c.solve_3D
    ∧ (c.tallyCurrent curr_segment track_flux azim_index polar_index
        fwd).group_indices_map = c.group_indices_map
    ∧ (c.tallyCurrent curr_segment track_flux azim_index polar_index
        fwd).getWeightInline = c.getWeightInline := by
  rw [tallyCurrent_eq_tallyAt c curr_segment track_flux azim_index polar_index
    fwd t ht hne]
  refine ⟨?_, ?_, rfl, rfl, rfl, rfl, rfl, rfl⟩
  · intro idx hlo hhi
    rw [tallyAt_store]
    unfold incrementValues
    rw [if_pos ⟨rfl, hlo, hhi⟩]
  · intro cell idx hnc
    rw [tallyAt_store]
    unfold incrementValues
    rw [if_neg hnc]

theorem tallyCurrent_frame_witness :
    ((exCmfd.tallyCurrent exSegment exFlux 0 0 true).surface_currents 1 7
      = exCmfd.surface_currents 1 7
        + (if exCmfd.solve_3D then
            currents3D exCmfd exFlux (exCmfd.getWeightInline 0 0)
          else currents2D exCmfd exFlux 0) (7 - 6))
    ∧ (exCmfd.tallyCurrent exSegment exFlux 0 0 true).surface_currents 0 0
      = exCmfd.surface_currents 0 0
    ∧ (exCmfd.tallyCurrent exSegment exFlux 0 0 true).num_cmfd_groups
      = exCmfd.num_cmfd_groups := by
  have h := tallyCurrent_frame exCmfd exSegment exFlux 0 0 true 29 rfl (by decide)
  have e1 : Int.tdiv 29 NUM_SURFACES = 1 := by decide
  have e2 : Int.tmod 29 NUM_SURFACES * (exCmfd.num_cmfd_groups : Int) = 6 := by
    decide
  have e3 : (Int.tmod 29 NUM_SURFACES + 1) * (exCmfd.num_cmfd_groups : Int) - 1
      = 7 := by decide
  rw [e1, e2, e3] at h
  exact ⟨h.1 7 (by decide) (by decide), h.2.1 0 0 (by decide), h.2.2.2.1⟩
